import Mathlib

/-!
Verification of the sequential-fallback combinator implemented in
`src/internal/operators/onErrorResumeNext.ts`.

The operator builds a per-subscription queue `remaining = [source, ...nextSources]`
and drives an advancement closure `subscribeNext`:

* if the downstream subscriber is closed, it does nothing;
* if the queue is non-empty it shifts the front entry and converts it with
  `innerFrom`; a conversion failure is caught and `subscribeNext` is invoked
  again on the remainder;
* otherwise it subscribes the converted source through an `OperatorSubscriber`
  whose `next` forwards to the downstream subscriber and whose `complete` and
  `error` handlers are both `noop` (terminals are swallowed); the advancement
  closure itself is registered as the inner subscription's teardown, so it runs
  again as soon as the inner run finalizes;
* with an empty queue it calls `subscriber.complete()`.

The embedding below models a queue entry as either a well-formed source (a
finite list of values followed by one terminal) or an entry whose `innerFrom`
conversion throws.  All sources emit synchronously upon subscription, matching
the synchronous-firehose discipline the code is written for.  Downstream
cancellation is modelled by a budget: `some k` means the downstream consumer
unsubscribes immediately after receiving its k-th `next` value (`some 0` is a
subscriber that is already closed, `none` a consumer that never cancels).  A
run is recorded as a trace of events: `subStart i` / `subEnd i` mark the
creation and finalization of the inner subscription for queue position `i`
(ghost labels, used only to state ordering properties), and `out n` records a
notification delivered downstream.
-/

namespace OnErrorResumeNext

/-- Terminal notification of a well-formed source: `complete` or `error`. -/
inductive Terminal : Type
  | complete : Terminal
  | error : Terminal
  deriving DecidableEq, Repr

/-- A well-formed source: it emits its `values` in order, then its terminal. -/
structure Source (α : Type) where
  values : List α
  term : Terminal
  deriving DecidableEq, Repr

/-- A queue entry: either a source (its conversion by `innerFrom` succeeds), or
an entry whose conversion throws before any subscription occurs. -/
inductive Entry (α : Type) : Type
  | src : Source α → Entry α
  | convFail : Entry α
  deriving DecidableEq, Repr

/-- A notification delivered to the downstream sink. -/
inductive Notif (α : Type) : Type
  | next : α → Notif α
  | error : Notif α
  | complete : Notif α
  deriving DecidableEq, Repr

/-- Trace events of one run: inner-subscription lifecycle markers (labelled by
the queue position they consume) and downstream notifications. -/
inductive Ev (α : Type) : Type
  | subStart : Nat → Ev α
  | subEnd : Nat → Ev α
  | out : Notif α → Ev α
  deriving DecidableEq, Repr

/-- The downstream subscriber is closed: its cancellation budget is exhausted. -/
def closedB : Option Nat → Bool
  | some 0 => true
  | _ => false

/-- One `next` delivery consumes one unit of the cancellation budget. -/
def decBudget : Option Nat → Option Nat
  | none => none
  | some k => some (k - 1)

/-- Synchronous emission of a source's values into the downstream subscriber:
each value is forwarded unless the subscriber has closed (a closed subscriber
drops `next` calls), and each delivered value decrements the budget.  Returns
the produced trace events and the remaining budget. -/
def emitVals : List α → Option Nat → List (Ev α) × Option Nat
  | [], b => ([], b)
  | v :: vs, b =>
    if closedB b then ([], b)
    else
      let r := emitVals vs (decBudget b)
      (Ev.out (Notif.next v) :: r.1, r.2)

/-- The `subscribeNext` advancement loop of `onErrorResumeNext`, as a trace.

`runAux q idx b` is the run of `subscribeNext` on queue `q`, where `idx` is the
queue position of the front entry (a ghost label) and `b` the downstream
budget.  Mirrors the source: a closed subscriber stops everything; an empty
queue yields `subscriber.complete()`; a conversion failure recurses on the
remainder; a source entry opens one inner subscription, forwards its values
(terminals are swallowed by the `noop` handlers), finalizes, and the teardown
runs `subscribeNext` on the remainder. -/
def runAux : List (Entry α) → Nat → Option Nat → List (Ev α)
  | q, idx, b =>
    if closedB b then []
    else
      match q with
      | [] => [Ev.out Notif.complete]
      | Entry.convFail :: rest => runAux rest (idx + 1) b
      | Entry.src s :: rest =>
        let r := emitVals s.values b
        Ev.subStart idx :: (r.1 ++ Ev.subEnd idx :: runAux rest (idx + 1) r.2)

/-- The initial queue of one subscription: `const remaining = [source, ...nextSources]`. -/
def remainingInit (source : Entry α) (nextSources : List (Entry α)) : List (Entry α) :=
  source :: nextSources

/-- The whole operator applied to a primary source and fallback entries. -/
def onErrorResumeNextRun (source : Source α) (nextSources : List (Entry α))
    (b : Option Nat) : List (Ev α) :=
  runAux (remainingInit (Entry.src source) nextSources) 0 b

/-- The notifications the downstream sink receives, extracted from a trace. -/
def outs (evs : List (Ev α)) : List (Notif α) :=
  evs.filterMap fun e =>
    match e with
    | Ev.out n => some n
    | _ => none

/-- The queue positions whose entries actually get subscribed, in subscription
order. -/
def startIdxs (evs : List (Ev α)) : List Nat :=
  evs.filterMap fun e =>
    match e with
    | Ev.subStart i => some i
    | _ => none

/-- The queue positions whose inner subscriptions finalized, in order. -/
def endIdxs (evs : List (Ev α)) : List Nat :=
  evs.filterMap fun e =>
    match e with
    | Ev.subEnd i => some i
    | _ => none

/-- All values of a queue, as downstream `next` notifications, in queue order;
entries whose conversion fails contribute nothing. -/
def flatVals : List (Entry α) → List (Notif α)
  | [] => []
  | Entry.convFail :: rest => flatVals rest
  | Entry.src s :: rest => s.values.map Notif.next ++ flatVals rest

/-- The queue positions holding source entries (the ones that get subscribed
when the run is not cancelled), counted from label `idx`. -/
def srcPositions : List (Entry α) → Nat → List Nat
  | [], _ => []
  | Entry.convFail :: rest, idx => srcPositions rest (idx + 1)
  | Entry.src _ :: rest, idx => idx :: srcPositions rest (idx + 1)

/-- Direct observation of a well-formed source by a never-cancelling sink:
its values, then its terminal notification. -/
def directRun (s : Source α) : List (Notif α) :=
  s.values.map Notif.next ++
    [match s.term with
     | Terminal.complete => Notif.complete
     | Terminal.error => Notif.error]

/-- One-pass check that a trace keeps at most one inner subscription alive:
`n` is the number of inner subscriptions currently alive, a new subscription
may only start while none is alive, and a finalization marker requires exactly
one alive.  `aliveOk evs 0 = true` says every instant of the trace has at most
one live inner subscription, and each one is created only after the previous
one has finalized. -/
def aliveOk : List (Ev α) → Nat → Bool
  | [], _ => true
  | Ev.subStart _ :: rest, n => (n == 0) && aliveOk rest (n + 1)
  | Ev.subEnd _ :: rest, n => (n == 1) && aliveOk rest 0
  | Ev.out _ :: rest, n => aliveOk rest n

/-- Nesting depth of `subscribeNext` invocations when every queue entry
terminates synchronously.  In the code, both recursion sites nest a new
`subscribeNext` frame inside the current one: the `catch` branch invokes
`subscribeNext()` directly, and `innerSub.add(subscribeNext)` executes the
teardown immediately (inside the current frame) because a synchronously
terminated inner subscription is already closed when the teardown is added.
The final frame is the one that observes the empty queue (or the closed
subscriber) and stops. -/
def advanceDepth : List (Entry α) → Option Nat → Nat
  | q, b =>
    if closedB b then 1
    else
      match q with
      | [] => 1
      | Entry.convFail :: rest => advanceDepth rest b + 1
      | Entry.src s :: rest => advanceDepth rest (emitVals s.values b).2 + 1

/-- The mutable state of one subscription to the operator: `nextSources` is
the caller-supplied fallback array (never written after the call), `remaining`
the per-subscription queue built as `[source, ...nextSources]`, whose front is
removed by `shift`; `output` accumulates downstream notifications and `halted`
records that the run has stopped (queue exhausted or subscriber closed). -/
structure OpState (α : Type) where
  nextSources : List (Entry α)
  remaining : List (Entry α)
  budget : Option Nat
  output : List (Notif α)
  halted : Bool
  deriving DecidableEq, Repr

/-- The state at the start of one subscription: `const remaining = [source,
...nextSources]` copies the caller's array behind a fresh queue. -/
def initState (source : Source α) (nextSources : List (Entry α)) (b : Option Nat) :
    OpState α :=
  { nextSources := nextSources
    remaining := Entry.src source :: nextSources
    budget := b
    output := []
    halted := false }

/-- One iteration of `subscribeNext` as a state transformer: it reads and
writes `remaining`, `budget`, `output` and `halted` only — the caller's
`nextSources` array is untouched. -/
def step (s : OpState α) : OpState α :=
  if s.halted then s
  else if closedB s.budget then { s with halted := true }
  else
    match s.remaining with
    | [] => { s with output := s.output ++ [Notif.complete], halted := true }
    | Entry.convFail :: rest => { s with remaining := rest }
    | Entry.src so :: rest =>
      let r := emitVals so.values s.budget
      { s with remaining := rest, budget := r.2, output := s.output ++ outs r.1 }

/-! ## Support lemmas -/

theorem closedB_none : closedB (none : Option Nat) = false := rfl

theorem closedB_eq_true (b : Option Nat) (h : closedB b = true) : b = some 0 := by
  cases b with
  | none => simp [closedB] at h
  | some k => cases k with
    | zero => rfl
    | succ k => simp [closedB] at h

theorem runAux_closed (q : List (Entry α)) (idx : Nat) (b : Option Nat)
    (h : closedB b = true) : runAux q idx b = [] := by
  cases q with
  | nil => simp [runAux, h]
  | cons e rest => cases e with
    | convFail => simp [runAux, h]
    | src s => simp [runAux, h]

theorem runAux_nil (idx : Nat) (b : Option Nat) (h : closedB b = false) :
    runAux ([] : List (Entry α)) idx b = [Ev.out Notif.complete] := by
  simp [runAux, h]

theorem runAux_convFail (rest : List (Entry α)) (idx : Nat) (b : Option Nat)
    (h : closedB b = false) :
    runAux (Entry.convFail :: rest) idx b = runAux rest (idx + 1) b := by
  simp [runAux, h]

theorem runAux_src (s : Source α) (rest : List (Entry α)) (idx : Nat) (b : Option Nat)
    (h : closedB b = false) :
    runAux (Entry.src s :: rest) idx b =
      Ev.subStart idx ::
        ((emitVals s.values b).1 ++
          Ev.subEnd idx :: runAux rest (idx + 1) (emitVals s.values b).2) := by
  simp [runAux, h]

theorem emitVals_none (vs : List α) :
    emitVals vs (none : Option Nat) =
      (vs.map (fun v => Ev.out (Notif.next v)), none) := by
  induction vs with
  | nil => rfl
  | cons v vs ih => simp [emitVals, closedB, decBudget, ih]

theorem emitVals_take (vs : List α) (k : Nat) (h : k ≤ vs.length) :
    emitVals vs (some k) =
      ((vs.take k).map (fun v => Ev.out (Notif.next v)), some 0) := by
  induction vs generalizing k with
  | nil =>
    have hk : k = 0 := Nat.le_zero.mp h
    subst hk; rfl
  | cons v vs ih =>
    cases k with
    | zero => rfl
    | succ k =>
      have hk : k ≤ vs.length := Nat.succ_le_succ_iff.mp h
      simp [emitVals, closedB, decBudget, ih k hk]

theorem emitVals_fst_shape (vs : List α) (b : Option Nat) :
    ∃ l : List α, (emitVals vs b).1 = l.map (fun v => Ev.out (Notif.next v)) := by
  induction vs generalizing b with
  | nil => exact ⟨[], rfl⟩
  | cons v vs ih =>
    by_cases hb : closedB b = true
    · refine ⟨[], ?_⟩; simp [emitVals, hb]
    · obtain ⟨l, hl⟩ := ih (decBudget b)
      refine ⟨v :: l, ?_⟩
      simp [emitVals, hb, hl]

theorem outs_nil : outs ([] : List (Ev α)) = [] := rfl

theorem outs_cons_out (n : Notif α) (l : List (Ev α)) :
    outs (Ev.out n :: l) = n :: outs l := rfl

theorem outs_cons_start (i : Nat) (l : List (Ev α)) :
    outs (Ev.subStart i :: l) = outs l := rfl

theorem outs_cons_end (i : Nat) (l : List (Ev α)) :
    outs (Ev.subEnd i :: l) = outs l := rfl

theorem outs_append (a b : List (Ev α)) : outs (a ++ b) = outs a ++ outs b :=
  List.filterMap_append a b _

theorem outs_mapNext (l : List α) :
    outs (l.map (fun v => Ev.out (Notif.next v))) = l.map Notif.next := by
  induction l with
  | nil => rfl
  | cons v l ih => simpa [outs_cons_out] using congrArg (Notif.next v :: ·) ih

theorem startIdxs_nil : startIdxs ([] : List (Ev α)) = [] := rfl

theorem startIdxs_cons_out (n : Notif α) (l : List (Ev α)) :
    startIdxs (Ev.out n :: l) = startIdxs l := rfl

theorem startIdxs_cons_start (i : Nat) (l : List (Ev α)) :
    startIdxs (Ev.subStart i :: l) = i :: startIdxs l := rfl

theorem startIdxs_cons_end (i : Nat) (l : List (Ev α)) :
    startIdxs (Ev.subEnd i :: l) = startIdxs l := rfl

theorem startIdxs_append (a b : List (Ev α)) :
    startIdxs (a ++ b) = startIdxs a ++ startIdxs b :=
  List.filterMap_append a b _

theorem startIdxs_mapNext (l : List α) :
    startIdxs (l.map (fun v => Ev.out (Notif.next v))) = [] := by
  induction l with
  | nil => rfl
  | cons v l ih => simpa [startIdxs_cons_out] using ih

theorem endIdxs_nil : endIdxs ([] : List (Ev α)) = [] := rfl

theorem endIdxs_cons_out (n : Notif α) (l : List (Ev α)) :
    endIdxs (Ev.out n :: l) = endIdxs l := rfl

theorem endIdxs_cons_start (i : Nat) (l : List (Ev α)) :
    endIdxs (Ev.subStart i :: l) = endIdxs l := rfl

theorem endIdxs_cons_end (i : Nat) (l : List (Ev α)) :
    endIdxs (Ev.subEnd i :: l) = i :: endIdxs l := rfl

theorem endIdxs_append (a b : List (Ev α)) :
    endIdxs (a ++ b) = endIdxs a ++ endIdxs b :=
  List.filterMap_append a b _

theorem endIdxs_mapNext (l : List α) :
    endIdxs (l.map (fun v => Ev.out (Notif.next v))) = [] := by
  induction l with
  | nil => rfl
  | cons v l ih => simpa [endIdxs_cons_out] using ih

theorem flatVals_mem (q : List (Entry α)) (n : Notif α) (h : n ∈ flatVals q) :
    ∃ v, n = Notif.next v := by
  induction q with
  | nil => simp [flatVals] at h
  | cons e rest ih =>
    cases e with
    | convFail => exact ih (by simpa [flatVals] using h)
    | src s =>
      rw [flatVals, List.mem_append] at h
      rcases h with h | h
      · obtain ⟨v, _, hv⟩ := List.mem_map.mp h
        exact ⟨v, hv.symm⟩
      · exact ih h

theorem flatVals_no_error (q : List (Entry α)) : Notif.error ∉ flatVals q := by
  intro h
  obtain ⟨v, hv⟩ := flatVals_mem q _ h
  exact Notif.noConfusion hv

theorem flatVals_no_complete (q : List (Entry α)) : Notif.complete ∉ flatVals q := by
  intro h
  obtain ⟨v, hv⟩ := flatVals_mem q _ h
  exact Notif.noConfusion hv

theorem runAux_none_decomp (q : List (Entry α)) (idx : Nat) :
    ∃ pre, runAux q idx none = pre ++ [Ev.out Notif.complete] ∧
      outs pre = flatVals q := by
  induction q generalizing idx with
  | nil => exact ⟨[], by simp [runAux_nil idx none closedB_none], rfl⟩
  | cons e rest ih =>
    cases e with
    | convFail =>
      obtain ⟨pre, hpre, hout⟩ := ih (idx + 1)
      exact ⟨pre, by rw [runAux_convFail rest idx none closedB_none, hpre], hout⟩
    | src s =>
      obtain ⟨pre, hpre, hout⟩ := ih (idx + 1)
      refine ⟨Ev.subStart idx ::
        (s.values.map (fun v => Ev.out (Notif.next v)) ++ Ev.subEnd idx :: pre), ?_, ?_⟩
      · rw [runAux_src s rest idx none closedB_none, emitVals_none, hpre]
        simp
      · simp [outs_cons_start, outs_append, outs_mapNext, outs_cons_end, hout, flatVals]

theorem outs_runAux_none (q : List (Entry α)) (idx : Nat) :
    outs (runAux q idx none) = flatVals q ++ [Notif.complete] := by
  obtain ⟨pre, hpre, hout⟩ := runAux_none_decomp q idx
  rw [hpre, outs_append, hout, outs_cons_out, outs_nil]

theorem flatVals_replicate_empty (n : Nat) (t : Terminal) :
    flatVals (List.replicate n (Entry.src (⟨[], t⟩ : Source α))) = [] := by
  induction n with
  | zero => rfl
  | succ n ih => rw [List.replicate_succ, flatVals]; simpa using ih

theorem startIdxs_length_eq_endIdxs_length (q : List (Entry α)) (idx : Nat)
    (b : Option Nat) :
    (startIdxs (runAux q idx b)).length = (endIdxs (runAux q idx b)).length := by
  induction q generalizing idx b with
  | nil =>
    by_cases hb : closedB b = true
    · rw [runAux_closed _ idx b hb]; rfl
    · rw [runAux_nil idx b (by simpa using hb)]
      rfl
  | cons e rest ih =>
    by_cases hb : closedB b = true
    · rw [runAux_closed _ idx b hb]; rfl
    · have hb' : closedB b = false := by simpa using hb
      cases e with
      | convFail => rw [runAux_convFail rest idx b hb']; exact ih (idx + 1) b
      | src s =>
        rw [runAux_src s rest idx b hb']
        obtain ⟨l, hl⟩ := emitVals_fst_shape s.values b
        rw [hl]
        rw [startIdxs_cons_start, startIdxs_append, startIdxs_mapNext,
          startIdxs_cons_end]
        rw [endIdxs_cons_start, endIdxs_append, endIdxs_mapNext, endIdxs_cons_end]
        simpa using ih (idx + 1) (emitVals s.values b).2

theorem emitVals_none_snd (vs : List α) :
    (emitVals vs (none : Option Nat)).2 = none := by rw [emitVals_none]

theorem startIdxs_runAux_prefix (q : List (Entry α)) (idx : Nat) (b : Option Nat) :
    ∃ m, m ≤ q.length ∧
      startIdxs (runAux q idx b) = srcPositions (q.take m) idx ∧
      (b = none → m = q.length) := by
  induction q generalizing idx b with
  | nil =>
    refine ⟨0, Nat.le_refl 0, ?_, fun _ => rfl⟩
    by_cases hb : closedB b = true
    · rw [runAux_closed _ idx b hb]; rfl
    · rw [runAux_nil idx b (by simpa using hb)]; rfl
  | cons e rest ih =>
    by_cases hb : closedB b = true
    · refine ⟨0, Nat.zero_le _, ?_, fun hn => ?_⟩
      · rw [runAux_closed _ idx b hb]; rfl
      · rw [hn] at hb; simp [closedB] at hb
    · have hb' : closedB b = false := by simpa using hb
      cases e with
      | convFail =>
        obtain ⟨m, hm, heq, hnone⟩ := ih (idx + 1) b
        refine ⟨m + 1, Nat.succ_le_succ hm, ?_, fun hn => ?_⟩
        · rw [runAux_convFail rest idx b hb', heq, List.take_succ_cons, srcPositions]
        · rw [List.length_cons, hnone hn]
      | src s =>
        obtain ⟨m, hm, heq, hnone⟩ := ih (idx + 1) (emitVals s.values b).2
        refine ⟨m + 1, Nat.succ_le_succ hm, ?_, fun hn => ?_⟩
        · rw [runAux_src s rest idx b hb']
          obtain ⟨l, hl⟩ := emitVals_fst_shape s.values b
          rw [hl, startIdxs_cons_start, startIdxs_append, startIdxs_mapNext,
            startIdxs_cons_end, heq, List.take_succ_cons, srcPositions]
          rfl
        · subst hn
          rw [List.length_cons, hnone (emitVals_none_snd s.values)]

theorem srcPositions_ge (q : List (Entry α)) (idx : Nat) :
    ∀ i ∈ srcPositions q idx, idx ≤ i := by
  induction q generalizing idx with
  | nil => intro i h; simp [srcPositions] at h
  | cons e rest ih =>
    intro i h
    cases e with
    | convFail =>
      exact Nat.le_of_succ_le (ih (idx + 1) i (by simpa [srcPositions] using h))
    | src s =>
      rw [srcPositions, List.mem_cons] at h
      rcases h with h | h
      · exact h ▸ Nat.le_refl idx
      · exact Nat.le_of_succ_le (ih (idx + 1) i h)

theorem srcPositions_sorted (q : List (Entry α)) (idx : Nat) :
    (srcPositions q idx).Sorted (fun i j => i < j) := by
  induction q generalizing idx with
  | nil => exact List.sorted_nil
  | cons e rest ih =>
    cases e with
    | convFail => exact ih (idx + 1)
    | src s =>
      rw [srcPositions, List.sorted_cons]
      exact ⟨fun j hj => Nat.lt_of_succ_le (srcPositions_ge rest (idx + 1) j hj),
        ih (idx + 1)⟩

theorem aliveOk_cons_start (i : Nat) (l : List (Ev α)) (n : Nat) :
    aliveOk (Ev.subStart i :: l) n = ((n == 0) && aliveOk l (n + 1)) := rfl

theorem aliveOk_cons_end (i : Nat) (l : List (Ev α)) (n : Nat) :
    aliveOk (Ev.subEnd i :: l) n = ((n == 1) && aliveOk l 0) := rfl

theorem aliveOk_cons_out (m : Notif α) (l : List (Ev α)) (n : Nat) :
    aliveOk (Ev.out m :: l) n = aliveOk l n := rfl

theorem aliveOk_mapNext_append (l : List α) (rest : List (Ev α)) (n : Nat) :
    aliveOk (l.map (fun v => Ev.out (Notif.next v)) ++ rest) n = aliveOk rest n := by
  induction l with
  | nil => rfl
  | cons v l ih => simpa [aliveOk_cons_out] using ih

theorem aliveOk_runAux (q : List (Entry α)) (idx : Nat) (b : Option Nat) :
    aliveOk (runAux q idx b) 0 = true := by
  induction q generalizing idx b with
  | nil =>
    by_cases hb : closedB b = true
    · rw [runAux_closed _ idx b hb]; rfl
    · rw [runAux_nil idx b (by simpa using hb)]; rfl
  | cons e rest ih =>
    by_cases hb : closedB b = true
    · rw [runAux_closed _ idx b hb]; rfl
    · have hb' : closedB b = false := by simpa using hb
      cases e with
      | convFail => rw [runAux_convFail rest idx b hb']; exact ih (idx + 1) b
      | src s =>
        rw [runAux_src s rest idx b hb']
        obtain ⟨l, hl⟩ := emitVals_fst_shape s.values b
        rw [hl, aliveOk_cons_start, aliveOk_mapNext_append, aliveOk_cons_end]
        simpa using ih (idx + 1) (emitVals s.values b).2

theorem aliveOk_prefix_le (p : List (Ev α)) :
    ∀ (evs : List (Ev α)) (n : Nat), n ≤ 1 → aliveOk evs n = true →
      List.IsPrefix p evs → (startIdxs p).length + n ≤ (endIdxs p).length + 1 := by
  induction p with
  | nil => intro evs n hn _ _; simpa [startIdxs_nil, endIdxs_nil] using hn
  | cons e p ih =>
    intro evs n hn h hp
    obtain ⟨t, rfl⟩ := hp
    cases e with
    | subStart i =>
      rw [List.cons_append, aliveOk_cons_start, Bool.and_eq_true, beq_iff_eq] at h
      obtain ⟨hn0, h'⟩ := h
      subst hn0
      have := ih (p ++ t) 1 (Nat.le_refl 1) h' ⟨t, rfl⟩
      rw [startIdxs_cons_start, endIdxs_cons_start]
      simpa using this
    | subEnd i =>
      rw [List.cons_append, aliveOk_cons_end, Bool.and_eq_true, beq_iff_eq] at h
      obtain ⟨hn1, h'⟩ := h
      subst hn1
      have := ih (p ++ t) 0 (Nat.zero_le 1) h' ⟨t, rfl⟩
      rw [startIdxs_cons_end, endIdxs_cons_end]
      simp only [List.length_cons]
      omega
    | out m =>
      rw [List.cons_append, aliveOk_cons_out] at h
      have := ih (p ++ t) n hn h ⟨t, rfl⟩
      rw [startIdxs_cons_out, endIdxs_cons_out]
      exact this

theorem advanceDepth_replicate_syncComplete (n : Nat) :
    advanceDepth
      (List.replicate n (Entry.src (⟨[], Terminal.complete⟩ : Source α))) none =
      n + 1 := by
  induction n with
  | zero => rfl
  | succ n ih =>
    rw [List.replicate_succ]
    show advanceDepth
      (List.replicate n (Entry.src (⟨[], Terminal.complete⟩ : Source α))) none + 1 =
      n + 1 + 1
    rw [ih]

theorem step_nextSources (s : OpState α) : (step s).nextSources = s.nextSources := by
  rw [step]
  by_cases h1 : s.halted
  · simp [h1]
  · by_cases h2 : closedB s.budget = true
    · simp [h1, h2]
    · cases hr : s.remaining with
      | nil => simp [h1, h2, hr]
      | cons e rest => cases e with
        | convFail => simp [h1, h2, hr]
        | src so => simp [h1, h2, hr]

theorem step_iterate_nextSources (s : OpState α) (n : Nat) :
    (step^[n] s).nextSources = s.nextSources := by
  induction n generalizing s with
  | zero => rfl
  | succ n ih => rw [Function.iterate_succ_apply, ih, step_nextSources]

theorem step_halted (s : OpState α) (h : s.halted = true) : step s = s := by
  rw [step, h]; rfl

theorem step_iterate_halted (s : OpState α) (n : Nat) (h : s.halted = true) :
    step^[n] s = s := by
  induction n with
  | zero => rfl
  | succ n ih => rw [Function.iterate_succ_apply, step_halted s h, ih]

theorem outs_runAux_idx (q : List (Entry α)) (b : Option Nat) (idx idx' : Nat) :
    outs (runAux q idx b) = outs (runAux q idx' b) := by
  induction q generalizing b idx idx' with
  | nil =>
    by_cases hb : closedB b = true
    · rw [runAux_closed _ idx b hb, runAux_closed _ idx' b hb]
    · rw [runAux_nil idx b (by simpa using hb), runAux_nil idx' b (by simpa using hb)]
  | cons e rest ih =>
    by_cases hb : closedB b = true
    · rw [runAux_closed _ idx b hb, runAux_closed _ idx' b hb]
    · have hb' : closedB b = false := by simpa using hb
      cases e with
      | convFail =>
        rw [runAux_convFail rest idx b hb', runAux_convFail rest idx' b hb']
        exact ih b (idx + 1) (idx' + 1)
      | src s =>
        rw [runAux_src s rest idx b hb', runAux_src s rest idx' b hb']
        rw [outs_cons_start, outs_cons_start, outs_append, outs_append,
          outs_cons_end, outs_cons_end]
        rw [ih (emitVals s.values b).2 (idx + 1) (idx' + 1)]

theorem step_iterate_output (q : List (Entry α)) :
    ∀ (c : List (Entry α)) (b : Option Nat) (o : List (Notif α)),
      (step^[q.length + 1]
        ({ nextSources := c, remaining := q, budget := b, output := o,
           halted := false } : OpState α)).output =
        o ++ outs (runAux q 0 b) := by
  induction q with
  | nil =>
    intro c b o
    rw [List.length_nil, Function.iterate_one]
    by_cases hb : closedB b = true
    · rw [runAux_closed _ 0 b hb, step]
      simp [hb, outs_nil]
    · rw [runAux_nil 0 b (by simpa using hb), step]
      simp [hb, outs_cons_out, outs_nil]
  | cons e rest ih =>
    intro c b o
    have hlen : (e :: rest).length + 1 = rest.length + 1 + 1 := by
      rw [List.length_cons]
    rw [hlen, Function.iterate_succ_apply]
    by_cases hb : closedB b = true
    · rw [runAux_closed _ 0 b hb]
      have hstep : step (⟨c, e :: rest, b, o, false⟩ : OpState α) =
          ⟨c, e :: rest, b, o, true⟩ := by
        rw [step]; simp [hb]
      rw [hstep, step_iterate_halted _ _ rfl]
      simp [outs_nil]
    · have hb' : closedB b = false := by simpa using hb
      cases e with
      | convFail =>
        have hstep : step (⟨c, Entry.convFail :: rest, b, o, false⟩ : OpState α) =
            ⟨c, rest, b, o, false⟩ := by
          rw [step]; simp [hb']
        rw [hstep, ih c b o, runAux_convFail rest 0 b hb',
          outs_runAux_idx rest b 1 0]
      | src so =>
        have hstep : step (⟨c, Entry.src so :: rest, b, o, false⟩ : OpState α) =
            ⟨c, rest, (emitVals so.values b).2,
              o ++ outs (emitVals so.values b).1, false⟩ := by
          rw [step]; simp [hb']
        rw [hstep, ih c (emitVals so.values b).2 (o ++ outs (emitVals so.values b).1)]
        rw [runAux_src so rest 0 b hb', outs_cons_start, outs_append, outs_cons_end,
          outs_runAux_idx rest (emitVals so.values b).2 1 0, List.append_assoc]

/-! ## Claims -/

/-- C1: for every queue of sources and every behaviour of its entries (values,
`error` or `complete` terminals, conversion failures), a non-cancelling
downstream sink receives exactly one `complete` — the run's trace is some
prefix followed by the single `complete`, and no `complete` or `error` occurs
in that prefix — and every inner subscription that starts also finalizes
before it (the start and finalization markers have equal counts and the
`complete` is the final trace event).  In particular, for a list of `n`
sources that each immediately error with no values, the downstream output is
exactly one `complete` and zero `next` or `error` notifications. -/
theorem C1_exactly_one_complete_never_error (q : List (Entry α)) (n : Nat) :
    (∃ pre, runAux q 0 none = pre ++ [Ev.out Notif.complete] ∧
        Notif.complete ∉ outs pre ∧ Notif.error ∉ outs pre) ∧
    (startIdxs (runAux q 0 none)).length = (endIdxs (runAux q 0 none)).length ∧
    outs (runAux
        (List.replicate n (Entry.src (⟨[], Terminal.error⟩ : Source α))) 0 none) =
      [Notif.complete] := by
  refine ⟨?_, startIdxs_length_eq_endIdxs_length q 0 none, ?_⟩
  · obtain ⟨pre, hpre, hout⟩ := runAux_none_decomp q 0
    refine ⟨pre, hpre, ?_, ?_⟩
    · rw [hout]; exact flatVals_no_complete q
    · rw [hout]; exact flatVals_no_error q
  · rw [outs_runAux_none, flatVals_replicate_empty]; rfl

/-- C2: the initial queue is exactly `[primary] ++ fallbacks` in the supplied
order, and sources are consumed strictly front-to-back: the subscribed queue
positions are exactly the source-entry positions of some front prefix of the
queue — the whole queue when the downstream never cancels — in strictly
increasing order, so each entry is subscribed at most once and none is
reordered, retried, or skipped except by the run ending early. -/
theorem C2_queue_front_to_back (s : Source α) (fbs : List (Entry α)) (b : Option Nat) :
    remainingInit (Entry.src s) fbs = [Entry.src s] ++ fbs ∧
    (∃ m, m ≤ (remainingInit (Entry.src s) fbs).length ∧
      startIdxs (onErrorResumeNextRun s fbs b) =
        srcPositions ((remainingInit (Entry.src s) fbs).take m) 0 ∧
      (b = none → m = (remainingInit (Entry.src s) fbs).length)) ∧
    (startIdxs (onErrorResumeNextRun s fbs b)).Sorted (fun i j => i < j) := by
  refine ⟨rfl, startIdxs_runAux_prefix _ 0 b, ?_⟩
  obtain ⟨m, _, heq, _⟩ :=
    startIdxs_runAux_prefix (remainingInit (Entry.src s) fbs) 0 b
  show (startIdxs (runAux (remainingInit (Entry.src s) fbs) 0 b)).Sorted
    (fun i j => i < j)
  rw [heq]
  exact srcPositions_sorted _ 0

/-- C3: for a primary emitting `[a, b]` then completing, a first fallback
emitting `[c]` then erroring, and a second fallback emitting `[d]` then
completing, the full trace is: subscribe the primary, forward `a` and `b`,
finalize it, subscribe the first fallback, forward `c`, finalize it, subscribe
the second fallback, forward `d`, finalize it, then `complete` — so the
downstream output is exactly `next a, next b, next c, next d, complete`, each
source's values in emission order, no value of a later source before the
earlier source finalized, and no `error` downstream. -/
theorem C3_faithful_interleaving {α : Type} (a b c d : α) :
    onErrorResumeNextRun ⟨[a, b], Terminal.complete⟩
        [Entry.src ⟨[c], Terminal.error⟩, Entry.src ⟨[d], Terminal.complete⟩] none =
      [Ev.subStart 0, Ev.out (Notif.next a), Ev.out (Notif.next b), Ev.subEnd 0,
        Ev.subStart 1, Ev.out (Notif.next c), Ev.subEnd 1,
        Ev.subStart 2, Ev.out (Notif.next d), Ev.subEnd 2,
        Ev.out Notif.complete] ∧
    outs (onErrorResumeNextRun ⟨[a, b], Terminal.complete⟩
        [Entry.src ⟨[c], Terminal.error⟩, Entry.src ⟨[d], Terminal.complete⟩] none) =
      [Notif.next a, Notif.next b, Notif.next c, Notif.next d, Notif.complete] :=
  ⟨rfl, rfl⟩

/-- C4: a queue entry whose conversion fails is abandoned without surfacing
the failure: downstream observes exactly what it would observe were the entry
a source that errors immediately with no values; the run immediately proceeds
with the next entry (when the subscriber is still open), and with no further
entries the failed conversion leads straight to `complete`. -/
theorem C4_conversion_failure_abandoned (rest : List (Entry α)) (b : Option Nat)
    (t : Terminal) :
    outs (runAux (Entry.convFail :: rest) 0 b) =
      outs (runAux (Entry.src ⟨[], t⟩ :: rest) 0 b) ∧
    runAux (Entry.convFail :: rest) 0 b =
      (if closedB b = true then [] else runAux rest 1 b) ∧
    outs (runAux ([Entry.convFail] : List (Entry α)) 0 none) = [Notif.complete] := by
  refine ⟨?_, ?_, rfl⟩
  · by_cases hb : closedB b = true
    · rw [runAux_closed _ 0 b hb, runAux_closed _ 0 b hb]
    · have hb' : closedB b = false := by simpa using hb
      rw [runAux_convFail rest 0 b hb', runAux_src ⟨[], t⟩ rest 0 b hb']
      show outs (runAux rest 1 b) =
        outs (Ev.subStart 0 :: ([] ++ Ev.subEnd 0 :: runAux rest 1 b))
      rw [List.nil_append, outs_cons_start, outs_cons_end]
  · by_cases hb : closedB b = true
    · rw [if_pos hb, runAux_closed _ 0 b hb]
    · have hb' : closedB b = false := by simpa using hb
      rw [if_neg hb, runAux_convFail rest 0 b hb']

/-- C5: downstream cancellation after `k` delivered values of the still-active
primary (`0 < k` and `k` at most the primary's value count) tears down the
primary's inner subscription and halts all advancement: the whole trace is the
primary's subscription start, its first `k` values, and its teardown marker —
no remaining queue entry is ever subscribed (the primary's position is the
only subscribed one) and no `complete` reaches the cancelling sink. -/
theorem C5_cancellation_stops_advancement (P : Source α) (fbs : List (Entry α))
    (k : Nat) (hk : 0 < k) (hle : k ≤ P.values.length) :
    onErrorResumeNextRun P fbs (some k) =
      Ev.subStart 0 ::
        ((P.values.take k).map (fun v => Ev.out (Notif.next v)) ++ [Ev.subEnd 0]) ∧
    startIdxs (onErrorResumeNextRun P fbs (some k)) = [0] ∧
    Notif.complete ∉ outs (onErrorResumeNextRun P fbs (some k)) := by
  have hcb : closedB (some k) = false := by
    cases k with
    | zero => exact absurd hk (Nat.lt_irrefl 0)
    | succ k => rfl
  have he := emitVals_take P.values k hle
  have h1 : (emitVals P.values (some k)).1 =
      (P.values.take k).map (fun v => Ev.out (Notif.next v)) := by rw [he]
  have h2 : (emitVals P.values (some k)).2 = some 0 := by rw [he]
  have htr : onErrorResumeNextRun P fbs (some k) =
      Ev.subStart 0 ::
        ((P.values.take k).map (fun v => Ev.out (Notif.next v)) ++ [Ev.subEnd 0]) := by
    show runAux (Entry.src P :: fbs) 0 (some k) = _
    rw [runAux_src P fbs 0 (some k) hcb, h1, h2, runAux_closed fbs 1 (some 0) rfl]
  refine ⟨htr, ?_, ?_⟩
  · rw [htr, startIdxs_cons_start, startIdxs_append, startIdxs_mapNext]
    rfl
  · rw [htr, outs_cons_start, outs_append, outs_mapNext]
    intro hmem
    rcases List.mem_append.mp hmem with h3 | h3
    · obtain ⟨v, _, hv⟩ := List.mem_map.mp h3
      exact Notif.noConfusion hv
    · rw [outs_cons_end, outs_nil] at h3
      exact List.not_mem_nil _ h3

/-- Witness for C5 at a concrete input: primary `[10, 20, 30]` (would
complete), two fallbacks, cancellation after the second delivered value. -/
theorem C5_cancellation_stops_advancement_witness :
    onErrorResumeNextRun (⟨[10, 20, 30], Terminal.complete⟩ : Source Nat)
        [Entry.src ⟨[5], Terminal.complete⟩, Entry.src ⟨[6], Terminal.complete⟩]
        (some 2) =
      Ev.subStart 0 ::
        ((([10, 20, 30] : List Nat).take 2).map (fun v => Ev.out (Notif.next v)) ++
          [Ev.subEnd 0]) ∧
    startIdxs (onErrorResumeNextRun (⟨[10, 20, 30], Terminal.complete⟩ : Source Nat)
        [Entry.src ⟨[5], Terminal.complete⟩, Entry.src ⟨[6], Terminal.complete⟩]
        (some 2)) = [0] ∧
    Notif.complete ∉ outs (onErrorResumeNextRun
        (⟨[10, 20, 30], Terminal.complete⟩ : Source Nat)
        [Entry.src ⟨[5], Terminal.complete⟩, Entry.src ⟨[6], Terminal.complete⟩]
        (some 2)) :=
  C5_cancellation_stops_advancement ⟨[10, 20, 30], Terminal.complete⟩
    [Entry.src ⟨[5], Terminal.complete⟩, Entry.src ⟨[6], Terminal.complete⟩] 2
    (by decide) (by decide)

/-- C6: at every instant of every run at most one inner subscription is alive:
the trace passes the single-alive check (`aliveOk` requires every subscription
to start while none is alive and to be finalized before the next one starts),
and consequently along every prefix of the trace the number of started inner
subscriptions exceeds the number of finalized ones by at most one. -/
theorem C6_at_most_one_inner_subscription (s : Source α) (fbs : List (Entry α))
    (b : Option Nat) :
    aliveOk (onErrorResumeNextRun s fbs b) 0 = true ∧
    ∀ p, List.IsPrefix p (onErrorResumeNextRun s fbs b) →
      (startIdxs p).length ≤ (endIdxs p).length + 1 := by
  refine ⟨aliveOk_runAux _ 0 b, fun p hp => ?_⟩
  have h := aliveOk_prefix_le p (onErrorResumeNextRun s fbs b) 0 (Nat.zero_le 1)
    (aliveOk_runAux _ 0 b) hp
  simpa using h

/-- C7: with zero fallbacks, a primary that emits its values and then errors
still drives the run into the empty queue: downstream receives all the values
followed by `complete`, and never the error — the source's error is silently
converted into a successful completion. -/
theorem C7_zero_fallback_error_becomes_complete (vs : List α) :
    outs (onErrorResumeNextRun ⟨vs, Terminal.error⟩ [] none) =
      vs.map Notif.next ++ [Notif.complete] ∧
    Notif.error ∉ outs (onErrorResumeNextRun ⟨vs, Terminal.error⟩ [] none) := by
  have h : outs (onErrorResumeNextRun ⟨vs, Terminal.error⟩ [] none) =
      flatVals [Entry.src ⟨vs, Terminal.error⟩] ++ [Notif.complete] :=
    outs_runAux_none _ 0
  constructor
  · rw [h]; simp [flatVals]
  · rw [h]
    intro hmem
    rcases List.mem_append.mp hmem with h1 | h1
    · exact flatVals_no_error _ h1
    · rw [List.mem_singleton] at h1
      exact Notif.noConfusion h1

/-- C8 counterexample: advancement across synchronously-terminating sources is
not iterative/trampolined — no constant bound caps the nesting depth of
`subscribeNext` frames over chains of synchronously completing sources, since
the depth for an `n`-source chain is `n + 1`. -/
theorem C8_counterexample_no_depth_bound :
    ¬ ∃ B : Nat, ∀ n : Nat,
      advanceDepth
        (List.replicate n (Entry.src (⟨[], Terminal.complete⟩ : Source Nat)))
        none ≤ B := by
  rintro ⟨B, hB⟩
  have h := hB (B + 1)
  rw [advanceDepth_replicate_syncComplete] at h
  omega

/-- C8 (amended): a chain of `n` fallback sources that each synchronously
complete immediately — in particular a chain of 1,000 — fully drains and
emits exactly one `complete` downstream; however, advancement is realized by
directly recursive `subscribeNext` calls whose nesting depth grows linearly
with the chain length (`n + 1` frames for `n` sources, 1,001 for 1,000), not
by an iterative/trampolined loop. -/
theorem C8_sync_chain_drains_with_linear_depth (n : Nat) :
    outs (runAux
        (List.replicate n (Entry.src (⟨[], Terminal.complete⟩ : Source Nat)))
        0 none) = [Notif.complete] ∧
    advanceDepth
        (List.replicate n (Entry.src (⟨[], Terminal.complete⟩ : Source Nat)))
        none = n + 1 ∧
    advanceDepth
        (List.replicate 1000 (Entry.src (⟨[], Terminal.complete⟩ : Source Nat)))
        none = 1001 := by
  refine ⟨?_, advanceDepth_replicate_syncComplete n, ?_⟩
  · rw [outs_runAux_none, flatVals_replicate_empty]; rfl
  · rw [advanceDepth_replicate_syncComplete]

/-- C9: with zero fallbacks, a primary that emits `[x, y]` and completes
yields downstream exactly `next x, next y, complete` — identical to observing
the source directly. -/
theorem C9_zero_fallback_identity_on_completion {α : Type} (x y : α) :
    outs (onErrorResumeNextRun ⟨[x, y], Terminal.complete⟩ [] none) =
      directRun ⟨[x, y], Terminal.complete⟩ ∧
    directRun (⟨[x, y], Terminal.complete⟩ : Source α) =
      [Notif.next x, Notif.next y, Notif.complete] :=
  ⟨rfl, rfl⟩

/-- C10: the caller's fallback array is never mutated: the per-subscription
queue is a fresh copy `[source, ...nextSources]`, every advancement step of
the run — to completion, through errors, or into cancellation — leaves the
caller-supplied `nextSources` field untouched (after any number of steps it
still holds the original elements in their original order), and the machine so
stepped produces exactly the combinator's downstream output. -/
theorem C10_caller_array_never_mutated (s : Source α) (fbs : List (Entry α))
    (b : Option Nat) :
    (initState s fbs b).remaining = [Entry.src s] ++ fbs ∧
    (∀ n : Nat, (step^[n] (initState s fbs b)).nextSources = fbs) ∧
    (step^[fbs.length + 2] (initState s fbs b)).output =
      outs (onErrorResumeNextRun s fbs b) := by
  refine ⟨rfl, fun n => step_iterate_nextSources _ n, ?_⟩
  have h := step_iterate_output (Entry.src s :: fbs) fbs b []
  rw [List.length_cons, List.nil_append] at h
  exact h

end OnErrorResumeNext
